import Mathlib

/-!
# AetherLoom flow-graph core: shallow embedding and verification

This file embeds the flow-graph editing core of the AetherLoom repository
(`frontend/src/store/useFlowStore.ts`, the node components under
`frontend/src/components/nodes/`, and the reactflow library helpers the store
calls) into Lean 4, and proves or refutes the specification claims about it.

Conventions:
* JS strings are `String`, nullable strings are `Option String`.
* JS numbers that matter here are exact (`ℚ`); node-`data` objects are
  association lists `List (String × Val)`.
* The unmemoized recursive `checkForCycles` need not terminate on cyclic
  inputs, so it is embedded with explicit fuel returning `Option Bool`;
  `none` models divergence (the JS function never returns).
-/

namespace AetherLoom

/-- JS values stored in a node's `data` object (strings, numbers, booleans,
nested objects such as `config`). -/
inductive Val where
  | vStr (s : String)
  | vNum (q : ℚ)
  | vBool (b : Bool)
  | vRec (fields : List (String × Val))

/-- An edge as used by the store: `id`, `source`, `target` node ids, and the
nullable `sourceHandle` / `targetHandle` (reactflow `Edge`). -/
structure EdgeT where
  id : String
  source : String
  target : String
  sourceHandle : Option String
  targetHandle : Option String
deriving DecidableEq, Repr

/-- A node as used by the store: `id`, `type` tag and the `data` object
(`position` is UI metadata, irrelevant to the validator and engine). -/
structure NodeT where
  id : String
  type : String
  data : List (String × Val)

/-- A proposed connection (reactflow `Connection`): all four fields are
`string | null`. -/
structure ConnectionT where
  source : Option String
  target : Option String
  sourceHandle : Option String
  targetHandle : Option String

/-- The Zustand store state: the `nodes` and `edges` arrays
(`useFlowStore.ts`, lines 16-29). -/
structure FlowSt where
  nodes : List NodeT
  edges : List EdgeT

/-! ## reactflow helpers used by the store

`getOutgoers` and `addEdge` are library functions of reactflow v11 that
`useFlowStore.ts` imports; their bodies are embedded from the library source.
-/

/-- reactflow's `getOutgoers(node, nodes, edges)`: the nodes that are targets
of edges whose source is `node.id`. -/
def getOutgoers (node : NodeT) (nodes : List NodeT) (edges : List EdgeT) :
    List NodeT :=
  let outgoerIds := (edges.filter (fun e => e.source == node.id)).map
    (fun e => e.target)
  nodes.filter (fun n => outgoerIds.contains n.id)

/-- JS falsiness of a `string | null` value (`null`, `undefined` and `""` are
falsy). -/
def falsyS (o : Option String) : Bool :=
  match o with
  | none => true
  | some s => s == ""

/-- reactflow's `getEdgeId`:
`reactflow__edge-${source}${sourceHandle || ''}-${target}${targetHandle || ''}`. -/
def getEdgeId (c : ConnectionT) : String :=
  "reactflow__edge-" ++ c.source.getD "" ++ c.sourceHandle.getD "" ++ "-"
    ++ c.target.getD "" ++ c.targetHandle.getD ""

/-- reactflow's `connectionExists(edge, edges)`: an edge with the same
source, target and (up to falsiness) handles is already present. -/
def connectionExists (e : EdgeT) (edges : List EdgeT) : Bool :=
  edges.any fun el =>
    el.source == e.source && el.target == e.target &&
    (el.sourceHandle == e.sourceHandle
      || (falsyS el.sourceHandle && falsyS e.sourceHandle)) &&
    (el.targetHandle == e.targetHandle
      || (falsyS el.targetHandle && falsyS e.targetHandle))

/-- reactflow's `addEdge(edgeParams, edges)` as called by the store's
`onConnect` (the argument is a `Connection`, so an id is generated): returns
`edges` unchanged when source or target is falsy or the connection already
exists, else appends the new edge. -/
def addEdge (c : ConnectionT) (edges : List EdgeT) : List EdgeT :=
  if falsyS c.source || falsyS c.target then edges
  else
    let e : EdgeT :=
      ⟨getEdgeId c, c.source.getD "", c.target.getD "",
        c.sourceHandle, c.targetHandle⟩
    if connectionExists e edges then edges else edges ++ [e]

/-! ## The connection validator (`useFlowStore.ts`, lines 73-125) -/

/-- JS `Array.prototype.some` over a possibly diverging (fuel-exhausting)
predicate, with left-to-right short-circuit: divergence of an earlier element
hides later elements. -/
def anyDiv {α : Type} (f : α → Option Bool) : List α → Option Bool
  | [] => some false
  | a :: l =>
    match f a with
    | none => none
    | some true => some true
    | some false => anyDiv f l

/-- The function `checkForCycles(target, source, nodes, edges)` (`useFlowStore.ts` lines
73-92), embedded with fuel: is `source` reachable from `target` by following
existing edges forward (through nodes present in `nodes`)?  The JS original
is unmemoized recursion with no visited set; `none` models fuel exhaustion,
i.e. a call depth the given fuel cannot cover (on cyclic inputs no fuel
suffices: the JS function diverges). -/
def checkForCyclesF (fuel : Nat) (target source : NodeT) (nodes : List NodeT)
    (edges : List EdgeT) : Option Bool :=
  match fuel with
  | 0 => none
  | fuel + 1 =>
    let outgoers := getOutgoers target nodes edges
    if outgoers.any (fun outgoer => outgoer.id == source.id) then some true
    else anyDiv (fun outgoer => checkForCyclesF fuel outgoer source nodes edges)
      outgoers

/-- The function `isValidConnection(connection, nodes, edges)` (`useFlowStore.ts` lines
94-125): rejects self-connections, second writers to an input handle,
connections whose source or target node is not found, and edges that would
close a cycle.  `none` models divergence of the embedded cycle check. -/
def isValidConnectionF (fuel : Nat) (c : ConnectionT) (nodes : List NodeT)
    (edges : List EdgeT) : Option Bool :=
  if c.source = c.target then some false
  else if edges.any (fun e =>
      some e.target == c.target && e.targetHandle == c.targetHandle) then
    some false
  else
    match nodes.find? (fun n => some n.id == c.source),
        nodes.find? (fun n => some n.id == c.target) with
    | some sourceNode, some targetNode =>
      match checkForCyclesF fuel targetNode sourceNode nodes edges with
      | none => none
      | some true => some false
      | some false => some true
    | _, _ => some false

/-! ## Reachability relations over the edge set -/

/-- One forward step along an existing edge: `a -> b` for some edge of the
list (the spec's "following existing edges forward"). -/
def eStep (edges : List EdgeT) (a b : String) : Prop :=
  ∃ e ∈ edges, e.source = a ∧ e.target = b

/-- One forward step along an existing edge whose target node is present in
the node list: this is exactly the step the code's `getOutgoers`-based
traversal can take. -/
def stepId (nodes : List NodeT) (edges : List EdgeT) (a b : String) : Prop :=
  (∃ e ∈ edges, e.source = a ∧ e.target = b) ∧ ∃ n ∈ nodes, n.id = b

/-- The edge set contains no directed cycle (spec invariant 3). -/
def EdgeAcyclic (edges : List EdgeT) : Prop :=
  ∀ x : String, ¬ Relation.TransGen (eStep edges) x x

theorem stepId_imp_eStep {nodes : List NodeT} {edges : List EdgeT} {a b : String}
    (h : stepId nodes edges a b) : eStep edges a b := h.1

theorem eStep_imp_stepId {nodes : List NodeT} {edges : List EdgeT}
    (hwf : ∀ e ∈ edges, ∃ n ∈ nodes, n.id = e.target) {a b : String}
    (h : eStep edges a b) : stepId nodes edges a b := by
  obtain ⟨e, he, hs, ht⟩ := h
  exact ⟨⟨e, he, hs, ht⟩, ht ▸ hwf e he⟩

theorem edgeAcyclic_imp_stepId_acyclic {nodes : List NodeT} {edges : List EdgeT}
    (h : EdgeAcyclic edges) :
    ∀ x : String, ¬ Relation.TransGen (stepId nodes edges) x x := by
  intro x hx
  exact h x (Relation.TransGen.mono (fun a b hab => stepId_imp_eStep hab) hx)

theorem mem_getOutgoers {o t : NodeT} {nodes : List NodeT} {edges : List EdgeT} :
    o ∈ getOutgoers t nodes edges ↔
      o ∈ nodes ∧ ∃ e ∈ edges, e.source = t.id ∧ e.target = o.id := by
  simp only [getOutgoers, List.mem_filter, List.contains_iff_exists_mem_beq,
    List.mem_map, List.mem_filter, beq_iff_eq]
  constructor
  · rintro ⟨hn, x, ⟨e, ⟨he, hsrc⟩, ht⟩, hx⟩
    exact ⟨hn, e, he, hsrc, by rw [ht, hx]⟩
  · rintro ⟨hn, e, he, hsrc, ht⟩
    exact ⟨hn, o.id, ⟨e, ⟨he, hsrc⟩, ht⟩, rfl⟩

/-- A step of the traversal: membership in `getOutgoers` is exactly a
`stepId` step between the ids. -/
theorem getOutgoers_stepId {t : NodeT} {nodes : List NodeT} {edges : List EdgeT}
    {m : String} :
    (∃ o ∈ getOutgoers t nodes edges, o.id = m) ↔ stepId nodes edges t.id m := by
  constructor
  · rintro ⟨o, ho, rfl⟩
    obtain ⟨hn, e, he, hsrc, ht⟩ := mem_getOutgoers.mp ho
    exact ⟨⟨e, he, hsrc, ht⟩, ⟨o, hn, rfl⟩⟩
  · rintro ⟨⟨e, he, hsrc, ht⟩, n, hn, hid⟩
    exact ⟨n, mem_getOutgoers.mpr ⟨hn, e, he, hsrc, by rw [ht, hid]⟩, hid⟩

/-- A chain of traversal steps starting below `t`: each element is an
outgoer of its predecessor.  Chains measure the recursion depth of
`checkForCycles`. -/
inductive OutChain (nodes : List NodeT) (edges : List EdgeT) :
    NodeT → List NodeT → Prop where
  | nil {t : NodeT} : OutChain nodes edges t []
  | cons {t o : NodeT} {l : List NodeT} (ho : o ∈ getOutgoers t nodes edges)
      (hl : OutChain nodes edges o l) : OutChain nodes edges t (o :: l)

theorem OutChain.reaches {nodes : List NodeT} {edges : List EdgeT} {t : NodeT}
    {l : List NodeT} (h : OutChain nodes edges t l) :
    ∀ x ∈ l, Relation.TransGen (stepId nodes edges) t.id x.id := by
  induction h with
  | nil => intro x hx; cases hx
  | cons ho hl ih =>
    intro x hx
    have hstep : stepId nodes edges _ _ :=
      getOutgoers_stepId.mp ⟨_, ho, rfl⟩
    rcases List.mem_cons.mp hx with rfl | hx
    · exact Relation.TransGen.single hstep
    · exact Relation.TransGen.head hstep (ih x hx)

theorem OutChain.subset {nodes : List NodeT} {edges : List EdgeT} {t : NodeT}
    {l : List NodeT} (h : OutChain nodes edges t l) : ∀ x ∈ l, x ∈ nodes := by
  induction h with
  | nil => intro x hx; cases hx
  | cons ho hl ih =>
    intro x hx
    rcases List.mem_cons.mp hx with rfl | hx
    · exact (mem_getOutgoers.mp ho).1
    · exact ih x hx

theorem OutChain.nodup {nodes : List NodeT} {edges : List EdgeT}
    (hacyc : ∀ x : String, ¬ Relation.TransGen (stepId nodes edges) x x)
    {t : NodeT} {l : List NodeT} (h : OutChain nodes edges t l) :
    (l.map (fun n => n.id)).Nodup := by
  induction h with
  | nil => exact List.nodup_nil
  | cons ho hl ih =>
    refine List.nodup_cons.mpr ⟨?_, ih⟩
    intro hmem
    obtain ⟨x, hx, hid⟩ := List.mem_map.mp hmem
    exact hacyc _ (hid ▸ hl.reaches x hx)

/-- On an acyclic graph every traversal chain is at most as long as the node
list: the recursion depth of `checkForCycles` is bounded. -/
theorem OutChain.length_le {nodes : List NodeT} {edges : List EdgeT}
    (hacyc : ∀ x : String, ¬ Relation.TransGen (stepId nodes edges) x x)
    {t : NodeT} {l : List NodeT} (h : OutChain nodes edges t l) :
    l.length ≤ nodes.length := by
  have hsub : (l.map (fun n => n.id)) ⊆ (nodes.map (fun n => n.id)) := by
    intro x hx
    obtain ⟨y, hy, hid⟩ := List.mem_map.mp hx
    exact List.mem_map.mpr ⟨y, h.subset y hy, hid⟩
  have := (List.subperm_of_subset (h.nodup hacyc) hsub).length_le
  simpa using this

theorem anyDiv_spec {α : Type} {f : α → Option Bool} {l : List α}
    (h : ∀ a ∈ l, f a ≠ none) :
    anyDiv f l ≠ none ∧ (anyDiv f l = some true ↔ ∃ a ∈ l, f a = some true) := by
  induction l with
  | nil => simp [anyDiv]
  | cons a l ih =>
    have ha := h a (List.mem_cons_self a l)
    have ih' := ih (fun b hb => h b (List.mem_cons_of_mem a hb))
    cases hfa : f a with
    | none => exact absurd hfa ha
    | some b =>
      cases b with
      | true => simp [anyDiv, hfa]
      | false =>
        simp only [anyDiv, hfa]
        refine ⟨ih'.1, ?_⟩
        rw [ih'.2]
        constructor
        · rintro ⟨x, hx, hfx⟩; exact ⟨x, List.mem_cons_of_mem a hx, hfx⟩
        · rintro ⟨x, hx, hfx⟩
          rcases List.mem_cons.mp hx with rfl | hx
          · rw [hfa] at hfx; cases hfx
          · exact ⟨x, hx, hfx⟩

/-- Main lemma on the embedded `checkForCycles`: on an acyclic graph, with
fuel exceeding every chain length, the check terminates and returns `true`
exactly when `source` is reachable from `target` through present nodes. -/
theorem checkForCyclesF_spec {nodes : List NodeT} {edges : List EdgeT}
    (s : NodeT) :
    ∀ (fuel : Nat) (t : NodeT),
      (∀ l, OutChain nodes edges t l → l.length < fuel) →
      checkForCyclesF fuel t s nodes edges ≠ none ∧
        (checkForCyclesF fuel t s nodes edges = some true ↔
          Relation.TransGen (stepId nodes edges) t.id s.id) := by
  intro fuel
  induction fuel with
  | zero =>
    intro t hchain
    exact absurd (hchain [] OutChain.nil) (by simp)
  | succ fuel ih =>
    intro t hchain
    by_cases hdir : (getOutgoers t nodes edges).any
        (fun outgoer => outgoer.id == s.id) = true
    · have hreach : Relation.TransGen (stepId nodes edges) t.id s.id := by
        obtain ⟨o, ho, hid⟩ := List.any_eq_true.mp hdir
        exact Relation.TransGen.single
          (getOutgoers_stepId.mp ⟨o, ho, by simpa using hid⟩)
      have hres : checkForCyclesF (fuel + 1) t s nodes edges = some true := by
        simp [checkForCyclesF, hdir]
      exact ⟨by simp [hres], by rw [hres]; exact ⟨fun _ => hreach, fun _ => rfl⟩⟩
    · have hrec : ∀ o ∈ getOutgoers t nodes edges,
          checkForCyclesF fuel o s nodes edges ≠ none ∧
            (checkForCyclesF fuel o s nodes edges = some true ↔
              Relation.TransGen (stepId nodes edges) o.id s.id) := by
        intro o ho
        refine ih o (fun l hl => ?_)
        have := hchain (o :: l) (OutChain.cons ho hl)
        simpa [Nat.succ_lt_succ_iff] using this
      have hany := anyDiv_spec (f := fun o => checkForCyclesF fuel o s nodes edges)
        (l := getOutgoers t nodes edges) (fun o ho => (hrec o ho).1)
      constructor
      · simpa [checkForCyclesF, hdir] using hany.1
      · simp only [checkForCyclesF, hdir, if_false, Bool.false_eq_true]
        rw [hany.2]
        constructor
        · rintro ⟨o, ho, hfo⟩
          exact Relation.TransGen.head
            (getOutgoers_stepId.mp ⟨o, ho, rfl⟩) ((hrec o ho).2.mp hfo)
        · intro hreach
          rcases Relation.TransGen.head'_iff.mp hreach with ⟨m, hm, hrest⟩
          obtain ⟨o, ho, hid⟩ := getOutgoers_stepId.mpr hm
          rcases Relation.reflTransGen_iff_eq_or_transGen.mp hrest with rfl | htg
          · exact absurd (List.any_eq_true.mpr ⟨o, ho, by simp [hid]⟩) hdir
          · exact ⟨o, ho, (hrec o ho).2.mpr (hid ▸ htg)⟩

/-- Fuel `nodes.length + 1` (or more) always suffices on acyclic graphs. -/
theorem checkForCyclesF_correct {nodes : List NodeT} {edges : List EdgeT}
    (hacyc : EdgeAcyclic edges) {fuel : Nat} (hfuel : nodes.length < fuel)
    (t s : NodeT) :
    checkForCyclesF fuel t s nodes edges ≠ none ∧
      (checkForCyclesF fuel t s nodes edges = some true ↔
        Relation.TransGen (stepId nodes edges) t.id s.id) := by
  have hacyc' : ∀ x : String, ¬ Relation.TransGen (stepId nodes edges) x x :=
    edgeAcyclic_imp_stepId_acyclic hacyc
  exact checkForCyclesF_spec s fuel t
    (fun l hl => lt_of_le_of_lt (hl.length_le hacyc') hfuel)

/-! ## The store's mutating actions (`useFlowStore.ts`, lines 28-62) -/

/-- Store action `onConnect: (connection) => set({ edges: addEdge(connection, get().edges) })`
(lines 41-45): commits the proposed connection with no validation of its own. -/
def onConnect (c : ConnectionT) (s : FlowSt) : FlowSt :=
  { s with edges := addEdge c s.edges }

/-- Store action `setNodes: (nodes) => set({ nodes })` (line 46). -/
def setNodesA (ns : List NodeT) (s : FlowSt) : FlowSt := { s with nodes := ns }

/-- Store action `setEdges: (edges) => set({ edges })` (line 47). -/
def setEdgesA (es : List EdgeT) (s : FlowSt) : FlowSt := { s with edges := es }

/-- Store action `addNode: (node) => set({ nodes: get().nodes.concat(node) })` (lines 48-50). -/
def addNodeA (n : NodeT) (s : FlowSt) : FlowSt :=
  { s with nodes := s.nodes ++ [n] }

/-- JS object spread `{...old, ...patch}` on association lists: keys of `old`
keep their position (values overridden by `patch` where present), keys only
in `patch` are appended in `patch` order. -/
def spreadMerge (old patch : List (String × Val)) : List (String × Val) :=
  (old.map fun p =>
    match List.lookup p.1 patch with
    | some v => (p.1, v)
    | none => p)
  ++ patch.filter fun q => (List.lookup q.1 old).isNone

/-- Store action `updateNodeData(id, data)` (lines 51-61): map over the nodes, shallow
merging `data` into the matching node's `data` object. -/
def updateNodeData (id : String) (patch : List (String × Val)) (s : FlowSt) :
    FlowSt :=
  { s with
    nodes := s.nodes.map fun node =>
      if node.id == id then { node with data := spreadMerge node.data patch }
      else node }

theorem lookup_append {α β : Type} [BEq α] (k : α) (l₁ l₂ : List (α × β)) :
    List.lookup k (l₁ ++ l₂) =
      match List.lookup k l₁ with
      | some v => some v
      | none => List.lookup k l₂ := by
  induction l₁ with
  | nil => simp [List.lookup]
  | cons p l₁ ih =>
    by_cases h : k == p.1
    · cases p; simp_all [List.lookup]
    · cases p; simp_all [List.lookup]

theorem lookup_spreadMerge_mapped (k : String) (old patch : List (String × Val)) :
    List.lookup k (old.map fun p =>
        match List.lookup p.1 patch with
        | some v => (p.1, v)
        | none => p) =
      match List.lookup k old with
      | some v =>
        match List.lookup k patch with
        | some w => some w
        | none => some v
      | none => none := by
  induction old with
  | nil => simp [List.lookup]
  | cons p old ih =>
    obtain ⟨k', v'⟩ := p
    cases hp : List.lookup k' patch with
    | some w =>
      by_cases h : k == k'
      · have hk := beq_iff_eq.mp h
        subst hk
        simp [List.lookup, hp]
      · simp [List.lookup, hp, h, ih]
    | none =>
      by_cases h : k == k'
      · have hk := beq_iff_eq.mp h
        subst hk
        simp [List.lookup, hp]
      · simp [List.lookup, hp, h, ih]

theorem lookup_spreadMerge_filtered (k : String) (old patch : List (String × Val)) :
    List.lookup k (patch.filter fun q => (List.lookup q.1 old).isNone) =
      match List.lookup k old with
      | some _ => none
      | none => List.lookup k patch := by
  induction patch with
  | nil => cases List.lookup k old <;> simp [List.lookup]
  | cons q patch ih =>
    by_cases hq : (List.lookup q.1 old).isNone
    · by_cases h : k == q.1
      · have hk : k = q.1 := beq_iff_eq.mp h
        cases ho : List.lookup k old with
        | some v => rw [hk] at ho; simp [ho] at hq
        | none => simp [List.filter_cons, hq, List.lookup, h, ho]
      · simp only [List.filter_cons, hq, if_true, List.lookup, h]
        exact ih
    · by_cases h : k == q.1
      · have hk : k = q.1 := beq_iff_eq.mp h
        cases ho : List.lookup k old with
        | some v =>
          simp only [List.filter_cons, Bool.not_eq_true] at hq ⊢
          rw [if_neg (by simp [hq])]
          rw [ih, ho]
        | none => rw [hk] at ho; simp [ho] at hq
      · simp only [List.filter_cons, Bool.not_eq_true] at hq ⊢
        rw [if_neg (by simp [hq])]
        rw [ih]
        cases List.lookup k old with
        | some v => rfl
        | none => simp [List.lookup, h]

/-- The shallow merge looks up as: `patch` wins where it has the key,
otherwise `old`. -/
theorem lookup_spreadMerge (k : String) (old patch : List (String × Val)) :
    List.lookup k (spreadMerge old patch) =
      match List.lookup k patch with
      | some v => some v
      | none => List.lookup k old := by
  rw [spreadMerge, lookup_append, lookup_spreadMerge_mapped,
    lookup_spreadMerge_filtered]
  cases ho : List.lookup k old <;> cases hp : List.lookup k patch <;> simp

/-! ## Helper lemmas for acyclicity of concrete edge lists -/

theorem transGen_lt_of_step_lt {α : Type} {r : α → α → Prop} {f : α → Nat}
    (h : ∀ a b, r a b → f a < f b) {a b : α}
    (htg : Relation.TransGen r a b) : f a < f b := by
  induction htg with
  | single hs => exact h _ _ hs
  | tail _ hs ih => exact lt_trans ih (h _ _ hs)

/-- A rank function increasing along every edge certifies acyclicity. -/
theorem edgeAcyclic_of_rank {edges : List EdgeT} {f : String → Nat}
    (h : ∀ a b, eStep edges a b → f a < f b) : EdgeAcyclic edges := by
  intro x hx
  exact lt_irrefl (f x) (transGen_lt_of_step_lt h hx)

theorem edgeAcyclic_nil : EdgeAcyclic [] := by
  refine edgeAcyclic_of_rank (f := fun _ => 0) ?_
  rintro a b ⟨e, he, -⟩
  cases he

theorem not_transGen_of_empty {α : Type} {r : α → α → Prop}
    (h : ∀ a b, ¬ r a b) {a b : α} : ¬ Relation.TransGen r a b := by
  intro htg
  rcases Relation.TransGen.head'_iff.mp htg with ⟨c, hc, -⟩
  exact h a c hc

/-! ## The rejection conditions -/

/-- The rejection condition exactly as spec §8 and claim C1 word it: the
connection is rejected iff `source == target`, or `target` already has an
edge into the same target handle, or `source` is reachable from `target` via
existing edges (this definition follows the spec's words; the code-level
condition `rejectCond` below is compared against it). -/
def specRejectCond (c : ConnectionT) (edges : List EdgeT) : Prop :=
  c.source = c.target ∨
  (∃ e ∈ edges, some e.target = c.target ∧ e.targetHandle = c.targetHandle) ∨
  (∃ tid sid, c.target = some tid ∧ c.source = some sid ∧
    Relation.TransGen (eStep edges) tid sid)

/-- The rejection condition the code actually implements: additionally the
source or target node id may be absent from the node list, and reachability
only follows edges through nodes present in the node list. -/
def rejectCond (c : ConnectionT) (nodes : List NodeT) (edges : List EdgeT) :
    Prop :=
  c.source = c.target ∨
  (∃ e ∈ edges, some e.target = c.target ∧ e.targetHandle = c.targetHandle) ∨
  (∀ n ∈ nodes, some n.id ≠ c.source) ∨
  (∀ n ∈ nodes, some n.id ≠ c.target) ∨
  (∃ tid sid, c.target = some tid ∧ c.source = some sid ∧
    Relation.TransGen (stepId nodes edges) tid sid)

/-- Full characterization of the embedded `isValidConnection`: on acyclic
edge sets, with fuel exceeding the node count, it terminates and returns
`false` exactly on `rejectCond` (hence `true` otherwise). -/
theorem isValidConnectionF_char {fuel : Nat} (c : ConnectionT)
    {nodes : List NodeT} {edges : List EdgeT} (hacyc : EdgeAcyclic edges)
    (hfuel : nodes.length < fuel) :
    isValidConnectionF fuel c nodes edges ≠ none ∧
      (isValidConnectionF fuel c nodes edges = some false ↔
        rejectCond c nodes edges) := by
  unfold isValidConnectionF
  by_cases hself : c.source = c.target
  · rw [if_pos hself]
    refine ⟨by simp, ?_⟩
    exact ⟨fun _ => Or.inl hself, fun _ => rfl⟩
  · rw [if_neg hself]
    by_cases hdup : edges.any (fun e =>
        some e.target == c.target && e.targetHandle == c.targetHandle) = true
    · rw [if_pos hdup]
      refine ⟨by simp, ⟨fun _ => ?_, fun _ => rfl⟩⟩
      obtain ⟨e, he, hp⟩ := List.any_eq_true.mp hdup
      simp only [Bool.and_eq_true, beq_iff_eq] at hp
      exact Or.inr (Or.inl ⟨e, he, hp.1, hp.2⟩)
    · rw [if_neg hdup]
      have hnodup : ¬ ∃ e ∈ edges,
          some e.target = c.target ∧ e.targetHandle = c.targetHandle := by
        rintro ⟨e, he, ht, hh⟩
        exact hdup (List.any_eq_true.mpr ⟨e, he, by simp [ht, hh]⟩)
      cases hfs : nodes.find? (fun n => some n.id == c.source) with
      | none =>
        have habs : ∀ n ∈ nodes, some n.id ≠ c.source := by
          intro n hn
          have := List.find?_eq_none.mp hfs n hn
          simpa using this
        cases hft : nodes.find? (fun n => some n.id == c.target) with
        | none =>
          dsimp only
          exact ⟨by simp, ⟨fun _ => Or.inr (Or.inr (Or.inl habs)),
            fun _ => rfl⟩⟩
        | some tn =>
          dsimp only
          exact ⟨by simp, ⟨fun _ => Or.inr (Or.inr (Or.inl habs)),
            fun _ => rfl⟩⟩
      | some sn =>
        have hsrc : c.source = some sn.id := by
          have := List.find?_some hfs
          exact (beq_iff_eq.mp this).symm
        have hsn : sn ∈ nodes := List.mem_of_find?_eq_some hfs
        cases hft : nodes.find? (fun n => some n.id == c.target) with
        | none =>
          have habs : ∀ n ∈ nodes, some n.id ≠ c.target := by
            intro n hn
            have := List.find?_eq_none.mp hft n hn
            simpa using this
          dsimp only
          exact ⟨by simp, ⟨fun _ => Or.inr (Or.inr (Or.inr (Or.inl habs))),
            fun _ => rfl⟩⟩
        | some tn =>
          have htgt : c.target = some tn.id := by
            have := List.find?_some hft
            exact (beq_iff_eq.mp this).symm
          have htn : tn ∈ nodes := List.mem_of_find?_eq_some hft
          obtain ⟨hcnn, hciff⟩ := checkForCyclesF_correct hacyc hfuel tn sn
          dsimp only
          cases hcfc : checkForCyclesF fuel tn sn nodes edges with
          | none => exact absurd hcfc hcnn
          | some b =>
            cases b with
            | true =>
              refine ⟨by simp, ⟨fun _ => ?_, fun _ => rfl⟩⟩
              exact Or.inr (Or.inr (Or.inr (Or.inr
                ⟨tn.id, sn.id, htgt, hsrc, hciff.mp hcfc⟩)))
            | false =>
              refine ⟨by simp, ?_, ?_⟩
              · intro h
                exact absurd h (by simp)
              intro hrej
              exfalso
              rcases hrej with h | h | h | h | h
              · exact hself h
              · exact hnodup h
              · exact h sn hsn hsrc.symm
              · exact h tn htn htgt.symm
              · obtain ⟨tid, sid, ht, hs, htg⟩ := h
                rw [htgt] at ht
                rw [hsrc] at hs
                obtain rfl : tn.id = tid := Option.some_injective _ ht
                obtain rfl : sn.id = sid := Option.some_injective _ hs
                rw [hciff.mpr htg] at hcfc
                cases hcfc

/-! ## Concrete fixtures for counterexamples and witnesses -/

/-- A minimal concrete node (data content is irrelevant to the validator). -/
def mkNode (i : String) : NodeT := ⟨i, "text_input", []⟩

/-- Nodes for the C4 counterexample: `t` and `s` are present, `x` is not. -/
def c4nodes : List NodeT := [mkNode "t", mkNode "s"]

/-- Edges for the C4 counterexample: a path `t -> x -> s` through the absent
node `x`. -/
def c4edges : List EdgeT :=
  [⟨"e1", "t", "x", none, none⟩, ⟨"e2", "x", "s", none, none⟩]

theorem c4edges_acyclic : EdgeAcyclic c4edges := by
  refine edgeAcyclic_of_rank
    (f := fun x => if x = "t" then 0 else if x = "x" then 1 else 2) ?_
  rintro a b ⟨e, he, hs, ht⟩
  rcases List.mem_cons.mp he with rfl | he
  · subst hs; subst ht; simp
  rcases List.mem_cons.mp he with rfl | he
  · subst hs; subst ht; simp
  cases he

/-- C1, counterexample.  The claim says the connection is accepted whenever
none of its three rejection conditions (self-loop, duplicate writer,
reachability) holds; but with an empty node list none of the three holds and
the code still rejects: the source and target nodes are not found. -/
theorem claim1_cex :
    isValidConnectionF 1 ⟨some "a", some "b", none, none⟩ [] [] = some false ∧
      ¬ specRejectCond ⟨some "a", some "b", none, none⟩ [] := by
  constructor
  · rfl
  · rintro (h | h | h)
    · exact absurd h (by simp)
    · obtain ⟨e, he, -⟩ := h
      cases he
    · obtain ⟨tid, sid, -, -, htg⟩ := h
      exact not_transGen_of_empty (by rintro a b ⟨e, he, -⟩; cases he) htg

/-- C1, amended.  For every node list and every acyclic edge list, with
traversal depth allowance exceeding the node count (which suffices there),
`isValidConnection` terminates and rejects if and only if: the source equals
the target, or an existing edge already targets the same
(target, targetHandle) pair, or the source or the target node id is absent
from the node list, or the source is reachable from the target following
existing edges forward through present nodes; in every other case the
connection is accepted. -/
theorem claim1_amended {fuel : Nat} (c : ConnectionT) {nodes : List NodeT}
    {edges : List EdgeT} (hacyc : EdgeAcyclic edges)
    (hfuel : nodes.length < fuel) :
    isValidConnectionF fuel c nodes edges ≠ none ∧
      (isValidConnectionF fuel c nodes edges = some false ↔
        rejectCond c nodes edges) :=
  isValidConnectionF_char c hacyc hfuel

/-- C1, witness: the amended theorem applied to a concrete two-node graph. -/
theorem claim1_amended_witness :
    isValidConnectionF 3 ⟨some "a", some "b", none, none⟩
      [mkNode "a", mkNode "b"] [] ≠ none :=
  (claim1_amended ⟨some "a", some "b", none, none⟩ edgeAcyclic_nil
    (by decide)).1

/-- C4, counterexample.  On an acyclic edge set with distinct present nodes
`t` and `s`, `s` is reachable from `t` via existing edges (`t -> x -> s`),
yet `checkForCycles` returns `false`, because the intermediate node `x` is
absent from the node list and `getOutgoers` only traverses present nodes. -/
theorem claim4_cex :
    EdgeAcyclic c4edges ∧ mkNode "t" ∈ c4nodes ∧ mkNode "s" ∈ c4nodes ∧
      (mkNode "t").id ≠ (mkNode "s").id ∧
      Relation.TransGen (eStep c4edges) "t" "s" ∧
      checkForCyclesF 3 (mkNode "t") (mkNode "s") c4nodes c4edges =
        some false := by
  refine ⟨c4edges_acyclic, by simp [c4nodes], by simp [c4nodes], by simp [mkNode],
    ?_, by rfl⟩
  refine Relation.TransGen.head ⟨⟨"e1", "t", "x", none, none⟩, ?_, rfl, rfl⟩
    (Relation.TransGen.single ⟨⟨"e2", "x", "s", none, none⟩, ?_, rfl, rfl⟩)
  · simp [c4edges]
  · simp [c4edges]

/-- C4, amended.  For every acyclic edge set and every pair of distinct
nodes `target` and `source` present in the node list, `checkForCycles`
(with recursion allowance exceeding the node count, which suffices there)
returns `true` if and only if `source` is reachable from `target` by
following one or more existing edges forward *through nodes present in the
node list*. -/
theorem claim4_amended {fuel : Nat} {tn sn : NodeT} {nodes : List NodeT}
    {edges : List EdgeT} (hacyc : EdgeAcyclic edges) (_htn : tn ∈ nodes)
    (_hsn : sn ∈ nodes) (_hne : tn.id ≠ sn.id) (hfuel : nodes.length < fuel) :
    checkForCyclesF fuel tn sn nodes edges = some true ↔
      Relation.TransGen (stepId nodes edges) tn.id sn.id :=
  (checkForCyclesF_correct hacyc hfuel tn sn).2

/-- Edges for the C4 witness graph. -/
def c4wEdges : List EdgeT := [⟨"e", "t", "s", none, none⟩]

/-- C4, witness: on the concrete graph `t -> s` with both nodes present the
check returns `true` and indeed `s` is reachable from `t`. -/
theorem claim4_amended_witness :
    Relation.TransGen (stepId [mkNode "t", mkNode "s"] c4wEdges)
      (mkNode "t").id (mkNode "s").id :=
  (@claim4_amended 3 (mkNode "t") (mkNode "s") [mkNode "t", mkNode "s"]
    c4wEdges
    (edgeAcyclic_of_rank (f := fun x => if x = "t" then 0 else 1)
      (by rintro a b ⟨e, he, hs, ht⟩
          rcases List.mem_cons.mp he with rfl | he
          · subst hs; subst ht; simp
          · cases he))
    (List.mem_cons_self _ _)
    (List.mem_cons_of_mem _ (List.mem_cons_self _ _))
    (by simp [mkNode]) (by decide)).mp (by rfl)

/-- C5: a proposed connection whose source node id or target node id is
absent from the node list is always rejected, with any fuel (the cycle
check is never reached). -/
theorem claim5_absent_rejected (fuel : Nat) (c : ConnectionT)
    (nodes : List NodeT) (edges : List EdgeT)
    (h : (∀ n ∈ nodes, some n.id ≠ c.source) ∨
      (∀ n ∈ nodes, some n.id ≠ c.target)) :
    isValidConnectionF fuel c nodes edges = some false := by
  unfold isValidConnectionF
  by_cases hself : c.source = c.target
  · rw [if_pos hself]
  · rw [if_neg hself]
    by_cases hdup : edges.any (fun e =>
        some e.target == c.target && e.targetHandle == c.targetHandle) = true
    · rw [if_pos hdup]
    · rw [if_neg hdup]
      rcases h with h | h
      · have hfs : nodes.find? (fun n => some n.id == c.source) = none :=
          List.find?_eq_none.mpr (fun n hn => by simpa using h n hn)
        rw [hfs]
      · have hft : nodes.find? (fun n => some n.id == c.target) = none :=
          List.find?_eq_none.mpr (fun n hn => by simpa using h n hn)
        rw [hft]
        cases nodes.find? (fun n => some n.id == c.source) <;> rfl

/-- C5, witness: a connection from the absent id `z` is rejected. -/
theorem claim5_witness :
    isValidConnectionF 0 ⟨some "z", some "b", none, none⟩ [mkNode "b"] [] =
      some false :=
  claim5_absent_rejected 0 _ _ _
    (Or.inl (by intro n hn; rcases List.mem_singleton.mp hn with rfl; simp [mkNode]))

/-! ## Structural invariants (spec §3, invariants 1-3) and their
preservation under validator-guarded edge additions -/

/-- Spec invariant 1 restricted to edges: every edge's source and target
reference nodes present in the graph. -/
def EdgeRefsPresent (nodes : List NodeT) (edges : List EdgeT) : Prop :=
  ∀ e ∈ edges, (∃ n ∈ nodes, n.id = e.source) ∧ (∃ n ∈ nodes, n.id = e.target)

/-- Spec invariant 2: at most one edge per (target node id, target handle
id) pair. -/
def SingleWriter (edges : List EdgeT) : Prop :=
  ∀ (t : String) (th : Option String),
    (edges.countP fun e => e.target == t && e.targetHandle == th) ≤ 1

/-- Spec invariants 1-3 on the edge list (invariant 4, handle-shape
conformance, concerns node types and is not checked by the validator). -/
def Inv (nodes : List NodeT) (edges : List EdgeT) : Prop :=
  EdgeRefsPresent nodes edges ∧ SingleWriter edges ∧ EdgeAcyclic edges

theorem inv_nil_edges (nodes : List NodeT) : Inv nodes [] := by
  refine ⟨?_, ?_, edgeAcyclic_nil⟩
  · rintro e he; cases he
  · intro t th; simp

theorem transGen_union_single {α : Type} {r : α → α → Prop} {s t : α}
    {a b : α}
    (h : Relation.TransGen (fun x y => r x y ∨ (x = s ∧ y = t)) a b) :
    Relation.TransGen r a b ∨
      (Relation.ReflTransGen r a s ∧ Relation.ReflTransGen r t b) := by
  induction h with
  | single h1 =>
    rcases h1 with h1 | ⟨rfl, rfl⟩
    · exact Or.inl (Relation.TransGen.single h1)
    · exact Or.inr ⟨Relation.ReflTransGen.refl, Relation.ReflTransGen.refl⟩
  | tail hab hbc ih =>
    rcases hbc with hbc | ⟨rfl, rfl⟩
    · rcases ih with ih | ⟨h1, h2⟩
      · exact Or.inl (ih.tail hbc)
      · exact Or.inr ⟨h1, h2.tail hbc⟩
    · rcases ih with ih | ⟨h1, h2⟩
      · exact Or.inr ⟨ih.to_reflTransGen, Relation.ReflTransGen.refl⟩
      · exact Or.inr ⟨h1, Relation.ReflTransGen.refl⟩

/-- Adding one edge `s -> t` to an acyclic relation stays acyclic provided
`s ≠ t` and `s` is not already reachable from `t`. -/
theorem acyclic_extend {α : Type} {r : α → α → Prop} {s t : α}
    (hacyc : ∀ x, ¬ Relation.TransGen r x x) (hst : s ≠ t)
    (hreach : ¬ Relation.TransGen r t s) :
    ∀ x, ¬ Relation.TransGen (fun a b => r a b ∨ (a = s ∧ b = t)) x x := by
  intro x hx
  rcases transGen_union_single hx with h | ⟨h1, h2⟩
  · exact hacyc x h
  · have hts : Relation.ReflTransGen r t s := h2.trans h1
    rcases Relation.reflTransGen_iff_eq_or_transGen.mp hts with h | h
    · exact hst h
    · exact hreach h

theorem eStep_append_single {edges : List EdgeT} {e : EdgeT} {a b : String} :
    eStep (edges ++ [e]) a b ↔
      eStep edges a b ∨ (a = e.source ∧ b = e.target) := by
  constructor
  · rintro ⟨e', he', hs, ht⟩
    rcases List.mem_append.mp he' with h | h
    · exact Or.inl ⟨e', h, hs, ht⟩
    · rcases List.mem_singleton.mp h with rfl
      exact Or.inr ⟨hs.symm, ht.symm⟩
  · rintro (⟨e', he', hs, ht⟩ | ⟨rfl, rfl⟩)
    · exact ⟨e', List.mem_append_left _ he', hs, ht⟩
    · exact ⟨e, List.mem_append_right _ (List.mem_singleton_self e), rfl, rfl⟩

/-- Core preservation step: a validator-approved connection, committed by
`addEdge`, preserves invariants 1-3. -/
theorem inv_preserved {fuel : Nat} {c : ConnectionT} {nodes : List NodeT}
    {edges : List EdgeT} (hInv : Inv nodes edges)
    (hfuel : nodes.length < fuel)
    (hvalid : isValidConnectionF fuel c nodes edges = some true) :
    Inv nodes (addEdge c edges) := by
  obtain ⟨hrefs, hsw, hacyc⟩ := hInv
  have hchar := isValidConnectionF_char c hacyc hfuel
  have hnrej : ¬ rejectCond c nodes edges := by
    intro hrej
    rw [hchar.2.mpr hrej] at hvalid
    cases hvalid
  rw [rejectCond] at hnrej
  push_neg at hnrej
  obtain ⟨hself, hnodup, hsrcp, htgtp, hnreach⟩ := hnrej
  obtain ⟨nsrc, hnsrc, hnsrcid⟩ := hsrcp
  obtain ⟨ntgt, hntgt, hntgtid⟩ := htgtp
  unfold addEdge
  by_cases hfalsy : (falsyS c.source || falsyS c.target) = true
  · rw [if_pos hfalsy]; exact ⟨hrefs, hsw, hacyc⟩
  · rw [if_neg hfalsy]
    by_cases hex : connectionExists
        ⟨getEdgeId c, c.source.getD "", c.target.getD "",
          c.sourceHandle, c.targetHandle⟩ edges = true
    · rw [if_pos hex]; exact ⟨hrefs, hsw, hacyc⟩
    · rw [if_neg hex]
      have hsrceq : c.source.getD "" = nsrc.id := by rw [← hnsrcid]; rfl
      have htgteq : c.target.getD "" = ntgt.id := by rw [← hntgtid]; rfl
      refine ⟨?_, ?_, ?_⟩
      · rintro e he
        rcases List.mem_append.mp he with h | h
        · exact hrefs e h
        · rcases List.mem_singleton.mp h with rfl
          exact ⟨⟨nsrc, hnsrc, hsrceq.symm⟩, ⟨ntgt, hntgt, htgteq.symm⟩⟩
      · intro t th
        rw [List.countP_append]
        by_cases hm : ((⟨getEdgeId c, c.source.getD "", c.target.getD "",
            c.sourceHandle, c.targetHandle⟩ : EdgeT).target == t &&
            (⟨getEdgeId c, c.source.getD "", c.target.getD "",
            c.sourceHandle, c.targetHandle⟩ : EdgeT).targetHandle == th) = true
        · simp only [Bool.and_eq_true, beq_iff_eq] at hm
          obtain ⟨hmt, hmh⟩ := hm
          have hzero : (edges.countP fun e =>
              e.target == t && e.targetHandle == th) = 0 := by
            rw [List.countP_eq_zero]
            intro e he hp
            simp only [Bool.and_eq_true, beq_iff_eq] at hp
            refine hnodup e he ?_ ?_
            · rw [hp.1, ← hmt, htgteq]
              exact hntgtid
            · rw [hp.2, ← hmh]
          rw [hzero, List.countP_singleton]
          split <;> simp
        · have hone : (List.countP (fun e =>
              e.target == t && e.targetHandle == th)
              [(⟨getEdgeId c, c.source.getD "", c.target.getD "",
                c.sourceHandle, c.targetHandle⟩ : EdgeT)]) = 0 := by
            rw [List.countP_eq_zero]
            intro e he hp
            rcases List.mem_singleton.mp he with rfl
            exact hm hp
          rw [hone]
          simpa using hsw t th
      · refine fun x hx => ?_
        have hiff : ∀ a b, eStep (edges ++
            [(⟨getEdgeId c, c.source.getD "", c.target.getD "",
              c.sourceHandle, c.targetHandle⟩ : EdgeT)]) a b →
            (fun a b => eStep edges a b ∨
              (a = c.source.getD "" ∧ b = c.target.getD "")) a b :=
          fun a b hab => eStep_append_single.mp hab
        have hst : c.source.getD "" ≠ c.target.getD "" := by
          rw [hsrceq, htgteq]
          intro hcontra
          apply hself
          rw [← hnsrcid, ← hntgtid, hcontra]
        have hreach : ¬ Relation.TransGen (eStep edges)
            (c.target.getD "") (c.source.getD "") := by
          intro htg
          refine hnreach ntgt.id nsrc.id hntgtid.symm hnsrcid.symm ?_
          have hmono : ∀ a b, eStep edges a b → stepId nodes edges a b :=
            fun a b hab => eStep_imp_stepId (fun e he => (hrefs e he).2) hab
          have := Relation.TransGen.mono hmono htg
          rw [htgteq, hsrceq] at this
          exact this
        exact acyclic_extend hacyc hst hreach x
          (Relation.TransGen.mono hiff hx)

/-- One canvas-level connection attempt: reactflow consults the
`isValidConnection` prop wired in `page.tsx` and fires the store's
`onConnect` only when it returns true (fuel `nodes.length + 1` always
suffices on the acyclic states this preserves). -/
def guardedConnect (s : FlowSt) (c : ConnectionT) : FlowSt :=
  if isValidConnectionF (s.nodes.length + 1) c s.nodes s.edges = some true
  then onConnect c s else s

/-- C2, counterexample.  The store's `onConnect` itself performs no
validation: calling it directly with a self-loop connection commits a
self-loop edge, violating the structural invariants. -/
theorem claim2_cex :
    (onConnect ⟨some "n1", some "n1", none, none⟩ ⟨[mkNode "n1"], []⟩).edges =
      [⟨"reactflow__edge-n1-n1", "n1", "n1", none, none⟩] ∧
    ¬ Inv (onConnect ⟨some "n1", some "n1", none, none⟩
        ⟨[mkNode "n1"], []⟩).nodes
      (onConnect ⟨some "n1", some "n1", none, none⟩
        ⟨[mkNode "n1"], []⟩).edges := by
  have hedges : (onConnect ⟨some "n1", some "n1", none, none⟩
      ⟨[mkNode "n1"], []⟩).edges =
      [⟨"reactflow__edge-n1-n1", "n1", "n1", none, none⟩] := by decide
  refine ⟨hedges, ?_⟩
  rintro ⟨-, -, hacyc⟩
  refine hacyc "n1" (Relation.TransGen.single ?_)
  rw [hedges]
  exact ⟨⟨"reactflow__edge-n1-n1", "n1", "n1", none, none⟩,
    List.mem_singleton_self _, rfl, rfl⟩

/-- C2, amended.  The store's `onConnect` performs no check of its own, so
the incremental guarantee holds only for connections that pass
`isValidConnection` first, as the canvas's `isValidConnection` prop
arranges: starting from any state satisfying invariants 1-3 (edge endpoints
present, single writer per input handle, no directed cycle), every sequence
of guarded connection attempts keeps the node list unchanged and preserves
invariants 1-3. -/
theorem claim2_amended (s0 : FlowSt) (hInv : Inv s0.nodes s0.edges)
    (cs : List ConnectionT) :
    (cs.foldl guardedConnect s0).nodes = s0.nodes ∧
      Inv (cs.foldl guardedConnect s0).nodes
        (cs.foldl guardedConnect s0).edges := by
  induction cs generalizing s0 with
  | nil => exact ⟨rfl, hInv⟩
  | cons c cs ih =>
    have hstep : (guardedConnect s0 c).nodes = s0.nodes ∧
        Inv (guardedConnect s0 c).nodes (guardedConnect s0 c).edges := by
      unfold guardedConnect
      by_cases hv : isValidConnectionF (s0.nodes.length + 1) c s0.nodes
          s0.edges = some true
      · rw [if_pos hv]
        exact ⟨rfl, inv_preserved hInv (Nat.lt_succ_self _) hv⟩
      · rw [if_neg hv]
        exact ⟨rfl, hInv⟩
    have := ih (guardedConnect s0 c) hstep.2
    simp only [List.foldl_cons]
    exact ⟨this.1.trans hstep.1, this.2⟩

/-- C2, witness: the amended theorem applied to an initially empty edge set
and one guarded connection attempt. -/
theorem claim2_amended_witness :
    (([⟨some "a", some "b", none, none⟩] : List ConnectionT).foldl
        guardedConnect ⟨[mkNode "a", mkNode "b"], []⟩).nodes =
      (⟨[mkNode "a", mkNode "b"], []⟩ : FlowSt).nodes ∧
    Inv (([⟨some "a", some "b", none, none⟩] : List ConnectionT).foldl
        guardedConnect ⟨[mkNode "a", mkNode "b"], []⟩).nodes
      (([⟨some "a", some "b", none, none⟩] : List ConnectionT).foldl
        guardedConnect ⟨[mkNode "a", mkNode "b"], []⟩).edges :=
  claim2_amended ⟨[mkNode "a", mkNode "b"], []⟩ (inv_nil_edges _) _

/-! ## Instrumented traversal: which nodes does `checkForCycles` visit?

`checkForCyclesT` is `checkForCyclesF` instrumented to additionally return
the list of nodes visited (one entry per call, in call order); the Bool
component agrees with the original (`checkForCyclesT_fst`). -/

def anyT {α : Type} (f : α → Option (Bool × List String)) :
    List α → Option (Bool × List String)
  | [] => some (false, [])
  | a :: l =>
    match f a with
    | none => none
    | some (true, tr) => some (true, tr)
    | some (false, tr) =>
      match anyT f l with
      | none => none
      | some (b, tr') => some (b, tr ++ tr')

def checkForCyclesT (fuel : Nat) (target source : NodeT) (nodes : List NodeT)
    (edges : List EdgeT) : Option (Bool × List String) :=
  match fuel with
  | 0 => none
  | fuel + 1 =>
    let outgoers := getOutgoers target nodes edges
    if outgoers.any (fun outgoer => outgoer.id == source.id) then
      some (true, [target.id])
    else
      match anyT (fun outgoer =>
          checkForCyclesT fuel outgoer source nodes edges) outgoers with
      | none => none
      | some (b, tr) => some (b, target.id :: tr)

theorem anyT_fst {α : Type} {f : α → Option (Bool × List String)}
    {g : α → Option Bool} {l : List α}
    (h : ∀ a ∈ l, (f a).map Prod.fst = g a) :
    (anyT f l).map Prod.fst = anyDiv g l := by
  induction l with
  | nil => rfl
  | cons a l ih =>
    have ha := h a (List.mem_cons_self a l)
    have ih' := ih (fun b hb => h b (List.mem_cons_of_mem a hb))
    cases hfa : f a with
    | none =>
      rw [hfa] at ha
      simp only [anyT, anyDiv, hfa, ← ha]
      rfl
    | some p =>
      obtain ⟨b, tr⟩ := p
      rw [hfa] at ha
      cases b with
      | true =>
        simp only [anyT, anyDiv, hfa, ← ha]
        rfl
      | false =>
        simp only [anyT, anyDiv, hfa, ← ha]
        cases hrec : anyT f l with
        | none =>
          rw [hrec] at ih'
          simp only [← ih']
          rfl
        | some p' =>
          obtain ⟨b', tr'⟩ := p'
          rw [hrec] at ih'
          simp only [← ih']
          rfl

theorem checkForCyclesT_fst (s : NodeT) (nodes : List NodeT)
    (edges : List EdgeT) :
    ∀ (fuel : Nat) (t : NodeT),
      (checkForCyclesT fuel t s nodes edges).map Prod.fst =
        checkForCyclesF fuel t s nodes edges := by
  intro fuel
  induction fuel with
  | zero => intro t; rfl
  | succ fuel ih =>
    intro t
    by_cases hdir : (getOutgoers t nodes edges).any
        (fun outgoer => outgoer.id == s.id) = true
    · simp [checkForCyclesT, checkForCyclesF, hdir]
    · simp only [checkForCyclesT, checkForCyclesF, hdir, if_false,
        Bool.false_eq_true]
      have := anyT_fst (l := getOutgoers t nodes edges)
        (f := fun o => checkForCyclesT fuel o s nodes edges)
        (g := fun o => checkForCyclesF fuel o s nodes edges)
        (fun o _ => ih o)
      rw [← this]
      cases anyT (fun o => checkForCyclesT fuel o s nodes edges)
          (getOutgoers t nodes edges) with
      | none => rfl
      | some p => obtain ⟨b, tr⟩ := p; rfl

/-- The diamond graph `t -> a -> c`, `t -> b -> c` with an isolated `s`. -/
def diamondNodes : List NodeT :=
  [mkNode "t", mkNode "a", mkNode "b", mkNode "c", mkNode "s"]

def diamondEdges : List EdgeT :=
  [⟨"e1", "t", "a", none, none⟩, ⟨"e2", "t", "b", none, none⟩,
   ⟨"e3", "a", "c", none, none⟩, ⟨"e4", "b", "c", none, none⟩]

/-- C3: the code's `checkForCycles` keeps no visited set.  On the diamond
graph it visits node `c` twice in a single check (trace
`t, a, c, b, c`), contradicting the spec's requirement that each node be
visited at most once per check via a visited set; on dense graphs the
revisits grow exponentially, and on cyclic inputs the recursion does not
terminate at any fuel. -/
theorem claim3_double_visit :
    checkForCyclesT 10 (mkNode "t") (mkNode "s") diamondNodes diamondEdges =
      some (false, ["t", "a", "c", "b", "c"]) ∧
    List.count "c" ["t", "a", "c", "b", "c"] = 2 ∧
    checkForCyclesF 10 (mkNode "t") (mkNode "s") diamondNodes diamondEdges =
      some false := by
  refine ⟨by decide, by decide, by decide⟩

/-! ## Block execution protocol (spec §4.3)

The backend block implementations (`backend/app/blocks/`) are not part of
the sources here — only the technical spec and the frontend configuration
UI reference them — so the Math Operation block is modelled from the spec.
-/

/-- Error kinds of the execution engine (spec §7). -/
inductive ErrKind where
  | blockExecutionError (msg : String)
  | graphStructureError (msg : String)
  | cycleDetectedError
  | upstreamFailurePropagation
deriving DecidableEq, Repr

/-- A block's outcome: value (or absence) and an optional error (spec §3). -/
structure BlockResult where
  value : Option Val
  error : Option ErrKind

/-- The four operations of the Math Operation block. -/
inductive MathOp where
  | add
  | subtract
  | multiply
  | divide

/-- Modelled from the spec: the backend Math Operation block's `run`
contract, absent from the sources (spec §4.3: inputs "a","b"; config
selects one of add/subtract/multiply/divide; divide by zero yields a
BlockExecutionError rather than an infinite/NaN value). -/
def mathOperationRun (op : MathOp) (inputs : String → Option Val) :
    BlockResult :=
  match inputs "a", inputs "b" with
  | some (Val.vNum a), some (Val.vNum b) =>
    match op with
    | MathOp.add => ⟨some (Val.vNum (a + b)), none⟩
    | MathOp.subtract => ⟨some (Val.vNum (a - b)), none⟩
    | MathOp.multiply => ⟨some (Val.vNum (a * b)), none⟩
    | MathOp.divide =>
      if b = 0 then ⟨none, some (ErrKind.blockExecutionError "division by zero")⟩
      else ⟨some (Val.vNum (a / b)), none⟩
  | _, _ => ⟨none, some (ErrKind.blockExecutionError "invalid inputs")⟩

/-- C6: a Math Operation block configured with `divide`, run with input `b`
equal to 0, always yields a BlockExecutionError result: no value (hence no
infinite/NaN value) and the block-scoped error kind. -/
theorem claim6_divide_by_zero (inputs : String → Option Val) (a : ℚ)
    (ha : inputs "a" = some (Val.vNum a))
    (hb : inputs "b" = some (Val.vNum 0)) :
    mathOperationRun MathOp.divide inputs =
      ⟨none, some (ErrKind.blockExecutionError "division by zero")⟩ := by
  unfold mathOperationRun
  rw [ha, hb]
  simp

/-- C6, witness: concrete inputs `a = 7`, `b = 0`. -/
theorem claim6_witness :
    mathOperationRun MathOp.divide
      (fun k => if k = "a" then some (Val.vNum 7)
        else if k = "b" then some (Val.vNum 0) else none) =
      ⟨none, some (ErrKind.blockExecutionError "division by zero")⟩ :=
  claim6_divide_by_zero _ 7 (by simp) (by simp)

/-! ## The Text Join node's separator (`OutputNode.tsx`, `TextJoinNode`) -/

/-- Reads `data.config` as an object, when present
(`data.config?.` in the component). -/
def nodeConfig (n : NodeT) : Option (List (String × Val)) :=
  match List.lookup "config" n.data with
  | some (Val.vRec r) => some r
  | _ => none

/-- The value found at `data.config?.separator`, if any. -/
def sepVal (n : NodeT) : Option Val :=
  match nodeConfig n with
  | some cfg => List.lookup "separator" cfg
  | none => none

/-- The `TextJoinNode` derived separator (`OutputNode.tsx` lines 303-304):
`typeof data.config?.separator === "string" ? data.config.separator : " "`. -/
def currentSeparator (n : NodeT) : String :=
  match sepVal n with
  | some (Val.vStr s) => s
  | _ => " "

/-- C7: when the config does not supply a separator string the node's
current separator is a single space; when `config.separator` is a string,
that exact string is used. -/
theorem claim7_separator (n : NodeT) :
    ((¬ ∃ s, sepVal n = some (Val.vStr s)) → currentSeparator n = " ") ∧
      (∀ s, sepVal n = some (Val.vStr s) → currentSeparator n = s) := by
  constructor
  · intro h
    unfold currentSeparator
    cases hv : sepVal n with
    | none => rfl
    | some v =>
      cases v with
      | vStr s => exact absurd ⟨s, hv⟩ h
      | vNum q => rfl
      | vBool b => rfl
      | vRec r => rfl
  · intro s hs
    unfold currentSeparator
    rw [hs]

/-- C7, witness: a node with no config falls back to a single space, and a
node configured with separator `", "` uses exactly `", "`. -/
theorem claim7_witness :
    currentSeparator (mkNode "j") = " " ∧
      currentSeparator
        ⟨"j2", "text_join",
          [("config", Val.vRec [("separator", Val.vStr ", ")])]⟩ = ", " :=
  ⟨(claim7_separator (mkNode "j")).1
      (by rintro ⟨s, hs⟩; exact absurd hs (by simp [sepVal, nodeConfig, mkNode, List.lookup])),
    (claim7_separator _).2 ", " (by simp [sepVal, nodeConfig, List.lookup])⟩

/-! ## The store as a state machine: mutating actions vs. the read-only
validator query -/

/-- The store's mutating API (`useFlowStore.ts` lines 41-61; the two
reactflow change-appliers `onNodesChange`/`onEdgesChange` route through
library helpers and are outside the claims considered here). -/
inductive FlowAction where
  | connect (c : ConnectionT)
  | setNodes (ns : List NodeT)
  | setEdges (es : List EdgeT)
  | addNode (n : NodeT)
  | updateNode (id : String) (patch : List (String × Val))

def applyAction : FlowAction → FlowSt → FlowSt
  | FlowAction.connect c, s => onConnect c s
  | FlowAction.setNodes ns, s => setNodesA ns s
  | FlowAction.setEdges es, s => setEdgesA es s
  | FlowAction.addNode n, s => addNodeA n s
  | FlowAction.updateNode i patch, s => updateNodeData i patch s

/-- Evaluating the validator the way the canvas does (`page.tsx` lines
86-88): read the store's current nodes and edges, compute the predicate,
touch nothing — the body of `isValidConnection`/`checkForCycles` only reads
its arguments and calls no store setter. -/
def runValidate (fuel : Nat) (c : ConnectionT) (s : FlowSt) :
    Option Bool × FlowSt :=
  (isValidConnectionF fuel c s.nodes s.edges, s)

/-- C8: `isValidConnection` and `checkForCycles` are pure predicates —
running the validator leaves the store state unchanged and its value is a
function of the node list, edge list and connection only; and no action
other than an explicit edge commit (`onConnect`, `setEdges`) ever changes
the edge list. -/
theorem claim8_pure :
    (∀ (fuel : Nat) (c : ConnectionT) (s : FlowSt),
      (runValidate fuel c s).2 = s ∧
        (runValidate fuel c s).1 = isValidConnectionF fuel c s.nodes s.edges) ∧
    (∀ (a : FlowAction) (s : FlowSt), (applyAction a s).edges ≠ s.edges →
      (∃ c, a = FlowAction.connect c) ∨ (∃ es, a = FlowAction.setEdges es)) := by
  refine ⟨fun fuel c s => ⟨rfl, rfl⟩, ?_⟩
  intro a s hne
  cases a with
  | connect c => exact Or.inl ⟨c, rfl⟩
  | setEdges es => exact Or.inr ⟨es, rfl⟩
  | setNodes ns => exact absurd rfl hne
  | addNode n => exact absurd rfl hne
  | updateNode i p => exact absurd rfl hne

/-- C8, witness: an edge-list change caused by `setEdges` is classified as
an edge-committing action. -/
theorem claim8_witness :
    (∃ c, FlowAction.setEdges [(⟨"e", "a", "b", none, none⟩ : EdgeT)] =
        FlowAction.connect c) ∨
    (∃ es, FlowAction.setEdges [(⟨"e", "a", "b", none, none⟩ : EdgeT)] =
        FlowAction.setEdges es) :=
  claim8_pure.2 _ ⟨[], []⟩ (by simp [applyAction, setEdgesA])

/-- C9: `updateNodeData(id, data)` changes at most the matching node: its
`data` becomes the shallow merge of the old data with the patch (patch keys
win), every other node is unchanged, the number and order of nodes and the
edge list are unchanged, and when no node matches the node list is
unchanged. -/
theorem claim9_updateNodeData_frame (id : String)
    (patch : List (String × Val)) (s : FlowSt) :
    (updateNodeData id patch s).edges = s.edges ∧
    (updateNodeData id patch s).nodes.length = s.nodes.length ∧
    (∀ i : Nat, (updateNodeData id patch s).nodes[i]? =
      (s.nodes[i]?).map fun n =>
        if n.id = id then { n with data := spreadMerge n.data patch }
        else n) ∧
    (∀ (old : List (String × Val)) (k : String),
      List.lookup k (spreadMerge old patch) =
        match List.lookup k patch with
        | some v => some v
        | none => List.lookup k old) ∧
    ((∀ n ∈ s.nodes, n.id ≠ id) → (updateNodeData id patch s).nodes = s.nodes) := by
  have hfun : (fun node : NodeT =>
      if node.id == id then { node with data := spreadMerge node.data patch }
      else node) = (fun n : NodeT =>
      if n.id = id then { n with data := spreadMerge n.data patch }
      else n) := by
    funext n
    by_cases h : n.id = id
    · simp [h]
    · simp [h]
  refine ⟨rfl, by simp [updateNodeData], ?_, ?_, ?_⟩
  · intro i
    show (s.nodes.map _)[i]? = _
    rw [List.getElem?_map, hfun]
  · intro old k
    exact lookup_spreadMerge k old patch
  · intro h
    show s.nodes.map _ = s.nodes
    rw [hfun]
    conv_rhs => rw [← List.map_id s.nodes]
    exact List.map_congr_left fun n hn => by simp [h n hn]

/-- C9, witness: patching an id absent from the node list leaves the nodes
unchanged. -/
theorem claim9_witness :
    (updateNodeData "zz" [("value", Val.vStr "x")]
      ⟨[mkNode "a"], []⟩).nodes = [mkNode "a"] :=
  (claim9_updateNodeData_frame "zz" [("value", Val.vStr "x")]
    ⟨[mkNode "a"], []⟩).2.2.2.2
    (by intro n hn
        rcases List.mem_singleton.mp hn with rfl
        simp [mkNode])

/-! ## TextInputNode's sanitizing change handler
(`TextInputNode.tsx`, lines 21-47)

`handleChange` first strips script blocks
(`.replace(/<script\b[^<]*(?:(?!<\/script>)<[^<]*)*<\/script>/gi, "")`),
then strips remaining HTML tags (`.replace(/<[^>]*>/g, "")`), validates the
optional `max_length`, and commits via `updateNodeData` unless the length
cap is exceeded.  Both regexes are deterministic (no successful
backtracking exists), so each global replace is embedded as a left-to-right
character scanner. -/

/-- JS regex word characters (the `\b` after `script`; the regex has no
unicode flag, so `\w` is ASCII letters, digits and underscore). -/
def isWordChar (c : Char) : Bool := c.isAlphanum || c == '_'

/-- Case-insensitive literal match (the regex `i` flag): on success returns
the rest of the input after the pattern. -/
def matchCI : List Char → List Char → Option (List Char)
  | [], l => some l
  | _ :: _, [] => none
  | p :: ps, c :: cs =>
    if p.toLower == c.toLower then matchCI ps cs else none

def scriptOpen : List Char := "<script".toList

def scriptClose : List Char := "</script>".toList

theorem matchCI_length :
    ∀ (p l r : List Char), matchCI p l = some r → r.length + p.length = l.length := by
  intro p
  induction p with
  | nil =>
    intro l r h
    simp only [matchCI, Option.some.injEq] at h
    subst h
    simp
  | cons a p ih =>
    intro l r h
    cases l with
    | nil => cases h
    | cons c cs =>
      unfold matchCI at h
      by_cases hb : (a.toLower == c.toLower) = true
      · rw [if_pos hb] at h
        have := ih cs r h
        simp only [List.length_cons]
        omega
      · rw [if_neg hb] at h
        cases h

/-- The body-and-close part of the script regex,
`[^<]*(?:(?!<\/script>)<[^<]*)*<\/script>`: scan forward; at each `<`
either the close tag matches (ending the match) or scanning continues;
characters other than `<` are always consumed by a `[^<]*`. -/
def scriptBody : List Char → Option (List Char)
  | [] => none
  | c :: cs =>
    if c == '<' then
      match matchCI scriptClose (c :: cs) with
      | some rem => some rem
      | none => scriptBody cs
    else scriptBody cs

theorem scriptBody_length :
    ∀ (l r : List Char), scriptBody l = some r → r.length < l.length := by
  intro l
  induction l with
  | nil => intro r h; cases h
  | cons c cs ih =>
    intro r h
    unfold scriptBody at h
    by_cases hc : (c == '<') = true
    · rw [if_pos hc] at h
      cases hm : matchCI scriptClose (c :: cs) with
      | some rem =>
        rw [hm] at h
        injection h with h
        subst h
        have hlen := matchCI_length _ _ _ hm
        have hnine : scriptClose.length = 9 := by decide
        simp only [List.length_cons] at hlen ⊢
        omega
      | none =>
        rw [hm] at h
        exact Nat.lt_trans (ih r h) (Nat.lt_succ_self _)
    · rw [if_neg hc] at h
      exact Nat.lt_trans (ih r h) (Nat.lt_succ_self _)

/-- The `\b` after `<script`: the next character, if any, is not a word
character. -/
def wordBoundaryOk : List Char → Bool
  | [] => true
  | r :: _ => !(isWordChar r)

/-- Global replace of the script-block regex with `""`: at each position
try the whole pattern (`<script` + `\b` + body + `</script>`); on a match
drop it and continue after it, otherwise keep the character and move on. -/
def stripScripts (l : List Char) : List Char :=
  match l with
  | [] => []
  | c :: cs =>
    match hm : matchCI scriptOpen (c :: cs) with
    | some rest =>
      if wordBoundaryOk rest then
        match hb : scriptBody rest with
        | some rem => stripScripts rem
        | none => c :: stripScripts cs
      else c :: stripScripts cs
    | none => c :: stripScripts cs
termination_by l.length
decreasing_by
  · have hlen := matchCI_length _ _ _ hm
    have hseven : scriptOpen.length = 7 := by decide
    have hbl := scriptBody_length _ _ hb
    have hcons : (c :: cs).length = cs.length + 1 := rfl
    omega
  · simp
  · simp
  · simp

/-- The rest of the input after the first `>`, if there is one (the
deterministic match of `[^>]*>` from just after a `<`). -/
def findTagEnd : List Char → Option (List Char)
  | [] => none
  | c :: cs => if c == '>' then some cs else findTagEnd cs

theorem findTagEnd_length :
    ∀ (l r : List Char), findTagEnd l = some r → r.length < l.length := by
  intro l
  induction l with
  | nil => intro r h; cases h
  | cons c cs ih =>
    intro r h
    unfold findTagEnd at h
    by_cases hc : (c == '>') = true
    · rw [if_pos hc] at h
      injection h with h
      subst h
      simp
    · rw [if_neg hc] at h
      exact Nat.lt_trans (ih r h) (Nat.lt_succ_self _)

theorem findTagEnd_none :
    ∀ l : List Char, findTagEnd l = none → ∀ c ∈ l, ¬ c = '>' := by
  intro l
  induction l with
  | nil => intro _ c hc; cases hc
  | cons a cs ih =>
    intro h c hc
    unfold findTagEnd at h
    by_cases ha : (a == '>') = true
    · rw [if_pos ha] at h; cases h
    · rw [if_neg ha] at h
      rcases List.mem_cons.mp hc with rfl | hc
      · simpa using ha
      · exact ih h c hc

/-- Global replace of `/<[^>]*>/g` with `""`: at a `<` with a later `>`,
drop through that `>` and continue; a `<` with no later `>` matches nothing
and is kept. -/
def stripTags (l : List Char) : List Char :=
  match l with
  | [] => []
  | c :: cs =>
    if c == '<' then
      match hf : findTagEnd cs with
      | some rest => stripTags rest
      | none => c :: stripTags cs
    else c :: stripTags cs
termination_by l.length
decreasing_by
  · have := findTagEnd_length _ _ hf
    simp only [List.length_cons]
    omega
  · simp
  · simp

/-- A string contains an HTML-tag substring (one matching `<[^>]*>`) iff
some `<` is followed, later, by some `>`; this Bool detects exactly that. -/
def hasTag : List Char → Bool
  | [] => false
  | c :: cs => (c == '<' && cs.contains '>') || hasTag cs

theorem findTagEnd_mem :
    ∀ (l r : List Char), findTagEnd l = some r → ∀ x ∈ r, x ∈ l := by
  intro l
  induction l with
  | nil => intro r h; cases h
  | cons a cs ih =>
    intro r h x hx
    unfold findTagEnd at h
    by_cases ha : (a == '>') = true
    · rw [if_pos ha] at h
      injection h with h
      subst h
      exact List.mem_cons_of_mem a hx
    · rw [if_neg ha] at h
      exact List.mem_cons_of_mem a (ih r h x hx)

theorem mem_stripTags {x : Char} :
    ∀ l : List Char, x ∈ stripTags l → x ∈ l := by
  intro l
  induction l using stripTags.induct with
  | case1 => simp [stripTags]
  | case2 c cs hc rest hf ih =>
    rw [stripTags]
    rw [if_pos hc, hf]
    intro h
    exact List.mem_cons_of_mem c (findTagEnd_mem cs rest hf x (ih h))
  | case3 c cs hc hf ih =>
    rw [stripTags]
    rw [if_pos hc, hf]
    intro h
    rcases List.mem_cons.mp h with rfl | h
    · exact List.mem_cons_self _ _
    · exact List.mem_cons_of_mem c (ih h)
  | case4 c cs hc ih =>
    rw [stripTags]
    rw [if_neg hc]
    intro h
    rcases List.mem_cons.mp h with rfl | h
    · exact List.mem_cons_self _ _
    · exact List.mem_cons_of_mem c (ih h)

/-- The output of the tag-stripping pass never contains a tag substring:
every surviving `<` has no `>` anywhere after it. -/
theorem stripTags_no_tag : ∀ l : List Char, hasTag (stripTags l) = false := by
  intro l
  induction l using stripTags.induct with
  | case1 => simp [stripTags, hasTag]
  | case2 c cs hc rest hf ih =>
    rw [stripTags, if_pos hc, hf]
    exact ih
  | case3 c cs hc hf ih =>
    rw [stripTags, if_pos hc, hf]
    rw [hasTag, ih]
    have hnogt : ((stripTags cs).contains '>') = false := by
      by_contra hmem
      rw [Bool.not_eq_false, List.contains_iff_exists_mem_beq] at hmem
      obtain ⟨b, hb, hbeq⟩ := hmem
      have hbcs := mem_stripTags cs hb
      have := findTagEnd_none cs hf b hbcs
      exact this (beq_iff_eq.mp hbeq).symm
    rw [hnogt]
    simp
  | case4 c cs hc ih =>
    rw [stripTags, if_neg hc]
    rw [hasTag, ih]
    have : (c == '<') = false := by simpa using hc
    rw [this]
    simp

/-- The committed value: the input after both regex replacements
(`TextInputNode.tsx` lines 28-30). -/
def sanitize (raw : String) : String :=
  String.mk (stripTags (stripScripts raw.toList))

/-- The handler `handleChange` (`TextInputNode.tsx` lines 21-47): sanitize the typed
value (the code binds it once as `newValue`), then commit it via
`updateNodeData` unless a truthy `max_length` is strictly exceeded
(`some v` is the committed value, `none` means the early return commits
nothing). -/
def handleChange (maxLength : Option ℚ) (raw : String) : Option String :=
  match maxLength with
  | some m =>
    if m ≠ 0 ∧ ((sanitize raw).length : ℚ) ≥ m then
      if ((sanitize raw).length : ℚ) > m then none else some (sanitize raw)
    else some (sanitize raw)
  | none => some (sanitize raw)

theorem sanitize_example : sanitize "<b>hi</b>" = "hi" := by
  have h : "<b>hi</b>".toList =
      ['<', 'b', '>', 'h', 'i', '<', '/', 'b', '>'] := by decide
  simp only [sanitize, h]
  simp +decide [stripScripts, matchCI, scriptOpen, scriptBody,
    wordBoundaryOk, stripTags, findTagEnd]

/-- C10: whenever a change event commits a value to the store, that value
is the typed string with script blocks and remaining HTML tags removed, and
it never contains an HTML tag (no `<` with a later `>`); and the stored
value can differ from the raw input. -/
theorem claim10_sanitized_commit :
    (∀ (ml : Option ℚ) (raw v : String), handleChange ml raw = some v →
      v = sanitize raw ∧ hasTag v.toList = false) ∧
    (handleChange none "<b>hi</b>" = some "hi" ∧
      sanitize "<b>hi</b>" ≠ "<b>hi</b>") := by
  have hcommit : ∀ (ml : Option ℚ) (raw v : String),
      handleChange ml raw = some v → v = sanitize raw := by
    intro ml raw v h
    unfold handleChange at h
    cases ml with
    | none =>
      simp only [Option.some.injEq] at h
      exact h.symm
    | some m =>
      dsimp only at h
      by_cases h1 : m ≠ 0 ∧ ((sanitize raw).length : ℚ) ≥ m
      · rw [if_pos h1] at h
        by_cases h2 : ((sanitize raw).length : ℚ) > m
        · rw [if_pos h2] at h; cases h
        · rw [if_neg h2] at h
          simp only [Option.some.injEq] at h
          exact h.symm
      · rw [if_neg h1] at h
        simp only [Option.some.injEq] at h
        exact h.symm
  refine ⟨fun ml raw v h => ⟨hcommit ml raw v h, ?_⟩, ?_, ?_⟩
  · rw [hcommit ml raw v h]
    exact stripTags_no_tag (stripScripts raw.toList)
  · show some (sanitize "<b>hi</b>") = some "hi"
    rw [sanitize_example]
  · rw [sanitize_example]
    decide

/-- C10, witness: the sanitizer theorem applied to a concrete change
event. -/
theorem claim10_witness :
    "hi" = sanitize "<b>hi</b>" ∧ hasTag (String.toList "hi") = false :=
  claim10_sanitized_commit.1 none "<b>hi</b>" "hi"
    (by show some (sanitize "<b>hi</b>") = some "hi"
        rw [sanitize_example])

end AetherLoom
